import Mathlib

/-!
Verification of the Wordle strategy analyzer: the feedback encoder
(`reply_for`), the partition engine (`partition`), bin statistics
(`bin_sizes`, `wins`, `expected_wins`), the win verifier (`can_win`,
`can_win_bin`) and the candidate generator (`disjoint_words`), embedded
from the notebook source.
-/

namespace Wordle

/-- A word: a string of uppercase letters, length 5 in play. -/
abbrev Word := List Char

/-- A reply: one symbol per position, drawn from Green, Yellow, Miss. -/
abbrev Reply := List Char

def Green : Char := 'G'

def Yellow : Char := 'Y'

def Miss : Char := '.'

/-- First pass of `reply_for`: each position is Green when guess and target
agree there, else provisionally Miss. -/
def pass1 (guess target : Word) : Reply :=
  List.zipWith (fun gc tc => if gc = tc then Green else Miss) guess target

/-- The multiset (as a list) of target letters at positions that were not
matched as Green in the first pass: the `Counter` of `reply_for`. -/
def unmatched (guess target : Word) : List Char :=
  (List.zip guess target).filterMap (fun p => if p.1 = p.2 then none else some p.2)

/-- Second pass of `reply_for`, in position order: a Miss whose guess letter
still has a positive count becomes Yellow and decrements the count. -/
def pass2 : Reply → Word → List Char → Reply
  | r :: rs, gc :: gs, counts =>
    if r = Miss ∧ gc ∈ counts then Yellow :: pass2 rs gs (counts.erase gc)
    else r :: pass2 rs gs counts
  | rs, _, _ => rs

/-- The five-character reply for this guess on this target in Wordle. -/
def reply_for (guess target : Word) : Reply :=
  pass2 (pass1 guess target) guess (unmatched guess target)

/-- The partition key of `target` under the ordered `guesses`: the tuple of
replies, one per guess, in guess order. -/
def replies (guesses : List Word) (target : Word) : List Reply :=
  guesses.map (fun g => reply_for g target)

/-- Append `t` to the bin keyed `k`; a new key opens a fresh bin at the end
(defaultdict insertion order). -/
def insertBin (k : List Reply) (t : Word) :
    List (List Reply × List Word) → List (List Reply × List Word)
  | [] => [(k, [t])]
  | (k0, b) :: rest =>
    if k0 = k then (k0, b ++ [t]) :: rest else (k0, b) :: insertBin k t rest

/-- The loop of `partition`: visit each target once, appending it to the bin
for its reply tuple. -/
def partitionAux (guesses : List Word) (acc : List (List Reply × List Word)) :
    List Word → List (List Reply × List Word)
  | [] => acc
  | t :: ts => partitionAux guesses (insertBin (replies guesses t) t acc) ts

/-- Partition `targets` into bins of `(reply tuple, words)`, as an
insertion-ordered association list. -/
def partition (guesses targets : List Word) : List (List Reply × List Word) :=
  partitionAux guesses [] targets

/-- `Counter` update for `bin_sizes`: bump the count of reply `r`, inserting
a new entry at the end when the reply is new. -/
def counterAdd : List (Reply × Nat) → Reply → List (Reply × Nat)
  | [], r => [(r, 1)]
  | (k, n) :: rest, r =>
    if k = r then (k, n + 1) :: rest else (k, n) :: counterAdd rest r

/-- Sizes of the bins when `words` are partitioned by `guess`: the values of
the `Counter` of the replies. -/
def bin_sizes (guess : Word) (words : List Word) : List Nat :=
  ((words.map (fun t => reply_for guess t)).foldl counterAdd []).map Prod.snd

/-- The number of guaranteed wins on the 2nd guess (after `guess` first). -/
def wins (guess : Word) (words : List Word) : Nat :=
  (bin_sizes guess words).count 1

/-- The expected number of wins on the 2nd guess (after `guess` first), in
exact rational arithmetic. -/
def expected_wins (guess : Word) (words : List Word) : ℚ :=
  ((bin_sizes guess words).map (fun n : Nat => 1 / (n : ℚ))).sum

/-- If `guess` is the first guess, can we solve the bin by the second guess? -/
def can_win_bin (guess : Word) (bin : List Word) : Bool :=
  (partition [guess] bin).all (fun e => e.2.length == 1)

/-- Will these initial guesses always lead to a win in 2 more guesses? -/
def can_win (guesses targets : List Word) : Bool :=
  (partition guesses targets).all
    (fun e => decide (e.2.length < 2) || e.2.all (fun w => can_win_bin w e.2))

/-- The inner scan of `disjoint_words`: try each pool word in order; a word
whose distinct letters fit the budget and number exactly 5 is committed and
the continuation `next` searches for the rest with the shrunken budget;
a failed continuation backtracks to the next pool word. -/
def disjoint_scan (next : Finset Char → Option (List Word)) :
    List Word → Finset Char → Option (List Word)
  | [], _ => none
  | w :: ws, letters =>
    if w.toFinset ⊆ letters ∧ w.toFinset.card = 5 then
      match next (letters \ w.toFinset) with
      | some rest => some (w :: rest)
      | none => disjoint_scan next ws letters
    else disjoint_scan next ws letters

/-- Tuple of `n` words made of `letters`, with no repeated letters, or the
explicit no-solution result `none`. -/
def disjoint_words : Nat → List Word → Finset Char → Option (List Word)
  | 0, _, _ => some []
  | n + 1, pool, letters =>
    disjoint_scan (fun rest => disjoint_words n pool rest) pool letters

theorem green_ne_miss : Green ≠ Miss := by decide

theorem yellow_ne_green : Yellow ≠ Green := by decide

theorem miss_ne_green : Miss ≠ Green := by decide

theorem pass2_nil (gs counts : List Char) : pass2 [] gs counts = [] := rfl

theorem pass2_nil_guess (rs counts : List Char) : pass2 rs [] counts = rs := by
  cases rs <;> rfl

theorem pass2_cons (r gc : Char) (rs gs counts : List Char) :
    pass2 (r :: rs) (gc :: gs) counts =
      if r = Miss ∧ gc ∈ counts then Yellow :: pass2 rs gs (counts.erase gc)
      else r :: pass2 rs gs counts := rfl

/-- The second pass never creates or destroys a Green. -/
theorem count_green_pass2 (rs gs counts : List Char) :
    (pass2 rs gs counts).count Green = rs.count Green := by
  induction rs generalizing gs counts with
  | nil => rw [pass2_nil]
  | cons r rs ih =>
    cases gs with
    | nil => rw [pass2_nil_guess]
    | cons gc gs =>
      rw [pass2_cons]
      split
      · rename_i hco
        rw [List.count_cons, List.count_cons, ih, hco.1]
        simp [yellow_ne_green, green_ne_miss, Ne.symm green_ne_miss]
      · rw [List.count_cons, List.count_cons, ih]

/-- Greens of the first pass are exactly the agreeing positions. -/
theorem count_green_pass1 (g t : List Char) :
    (pass1 g t).count Green = ((g.zip t).filter (fun p => p.1 = p.2)).length := by
  induction g generalizing t with
  | nil => simp [pass1]
  | cons gc g ih =>
    cases t with
    | nil => simp [pass1]
    | cons tc t =>
      simp only [pass1] at ih ⊢
      rw [List.zipWith_cons_cons, List.zip_cons_cons, List.filter_cons]
      by_cases h : gc = tc
      · simp [h, List.count_cons, ih]
      · simp [h, List.count_cons, ih, miss_ne_green]

/-- C5: for every pair of equal-length words `g` and `t`, the number of Hit
symbols in `reply_for g t` equals exactly the number of positions `i` with
`g[i] = t[i]`. -/
theorem reply_for_hit_count (g t : Word) (h : g.length = t.length) :
    (reply_for g t).count Green = ((g.zip t).filter (fun p => p.1 = p.2)).length := by
  rw [reply_for, count_green_pass2, count_green_pass1]

theorem reply_for_hit_count_witness :
    (reply_for ("HELLO".toList) ("CELLO".toList)).count Green =
      ((("HELLO".toList).zip ("CELLO".toList)).filter (fun p => p.1 = p.2)).length :=
  reply_for_hit_count ("HELLO".toList) ("CELLO".toList) (by decide)

/-- C4: `reply_for HELLO ALLEY` is Miss, Partial, Hit, Partial, Miss in that
position order (the string `.YGY.`), exercising the duplicate-letter
disambiguation of the two-pass encoder. -/
theorem reply_for_hello_alley :
    reply_for ("HELLO".toList) ("ALLEY".toList) = [Miss, Yellow, Green, Yellow, Miss] := by
  decide

/-- A reply without a Miss passes through the second pass unchanged. -/
theorem pass2_no_miss (rs gs counts : List Char) (h : Miss ∉ rs) :
    pass2 rs gs counts = rs := by
  induction rs generalizing gs counts with
  | nil => rw [pass2_nil]
  | cons r rs ih =>
    cases gs with
    | nil => rw [pass2_nil_guess]
    | cons gc gs =>
      have hr : ¬(r = Miss ∧ gc ∈ counts) := fun hc => h (hc.1 ▸ List.mem_cons_self r rs)
      rw [pass2_cons, if_neg hr, ih gs counts (fun hm => h (List.mem_cons_of_mem _ hm))]

theorem pass1_self (g : List Char) : pass1 g g = List.replicate g.length Green := by
  induction g with
  | nil => rfl
  | cons gc g ih =>
    simp only [pass1] at ih ⊢
    rw [List.zipWith_cons_cons, if_pos rfl, List.length_cons, List.replicate_succ, ih]

theorem reply_for_self (g : Word) : reply_for g g = List.replicate g.length Green := by
  rw [reply_for, pass1_self, pass2_no_miss]
  intro hm
  rw [List.mem_replicate] at hm
  exact miss_ne_green hm.2

/-- If the second pass yields an all-Green reply, its input was already
all Green. -/
theorem pass2_eq_replicate (rs gs counts : List Char) (n : Nat)
    (h : pass2 rs gs counts = List.replicate n Green) : rs = List.replicate n Green := by
  induction rs generalizing gs counts n with
  | nil => exact h
  | cons r rs ih =>
    cases gs with
    | nil => exact h
    | cons gc gs =>
      rw [pass2_cons] at h
      split at h
      · cases n with
        | zero => simp at h
        | succ n =>
          rw [List.replicate_succ] at h
          exact absurd (List.head_eq_of_cons_eq h) yellow_ne_green
      · cases n with
        | zero => simp at h
        | succ n =>
          rw [List.replicate_succ] at h ⊢
          obtain ⟨h1, h2⟩ := List.cons_eq_cons.mp h
          rw [h1, ih gs counts n h2]

/-- If the first pass is all Green then the words agree. -/
theorem pass1_all_green (g : List Char) : ∀ t : List Char, g.length = t.length →
    pass1 g t = List.replicate g.length Green → g = t := by
  induction g with
  | nil =>
    intro t hlen _
    cases t with
    | nil => rfl
    | cons tc t => simp at hlen
  | cons gc g ih =>
    intro t hlen h
    cases t with
    | nil => simp at hlen
    | cons tc t =>
      simp only [pass1] at h
      rw [List.zipWith_cons_cons, List.length_cons, List.replicate_succ] at h
      obtain ⟨h1, h2⟩ := List.cons_eq_cons.mp h
      have hgt : gc = tc := by
        by_cases hc : gc = tc
        · exact hc
        · rw [if_neg hc] at h1
          exact absurd h1 miss_ne_green
      rw [hgt, ih t (by simpa using hlen) h2]

/-- C9: for words of length 5, the reply is all Hits exactly when the guess
is the target. -/
theorem reply_for_all_green_iff (g t : Word) (h1 : g.length = 5) (h2 : t.length = 5) :
    reply_for g t = List.replicate 5 Green ↔ g = t := by
  constructor
  · intro h
    refine pass1_all_green g t (h1.trans h2.symm) ?_
    rw [h1]
    exact pass2_eq_replicate _ _ _ _ h
  · rintro rfl
    rw [reply_for_self, h1]

theorem reply_for_all_green_iff_witness :
    reply_for ("HELLO".toList) ("HELLO".toList) = List.replicate 5 Green :=
  (reply_for_all_green_iff ("HELLO".toList) ("HELLO".toList) (by decide) (by decide)).mpr rfl

theorem miss_ne_yellow : Miss ≠ Yellow := by decide

theorem filter_cons_pos {α : Type} (p : α → Bool) (a : α) (l : List α) (h : p a = true) :
    (a :: l).filter p = a :: l.filter p := by
  rw [List.filter_cons, if_pos h]

theorem filter_cons_neg {α : Type} (p : α → Bool) (a : α) (l : List α) (h : p a = false) :
    (a :: l).filter p = l.filter p := by
  rw [List.filter_cons, if_neg (by simp [h])]

/-- Each Yellow the second pass creates at a position guessing letter `c`
consumes one `c` from the counts. -/
theorem pass2_yellow_bound (c : Char) (rs gs counts : List Char) :
    ((gs.zip (pass2 rs gs counts)).filter (fun p => p.1 = c ∧ p.2 = Yellow)).length ≤
      ((gs.zip rs).filter (fun p => p.1 = c ∧ p.2 = Yellow)).length + counts.count c := by
  induction rs generalizing gs counts with
  | nil => simp [pass2_nil]
  | cons r rs ih =>
    cases gs with
    | nil => simp [pass2_nil_guess]
    | cons gc gs =>
      rw [pass2_cons]
      split
      · rename_i hco
        rw [List.zip_cons_cons, List.zip_cons_cons,
          filter_cons_neg _ (gc, r) _ (decide_eq_false (fun hpq => miss_ne_yellow (hco.1 ▸ hpq.2)))]
        by_cases hgc : gc = c
        · subst hgc
          rw [filter_cons_pos _ (gc, Yellow) _ (decide_eq_true ⟨rfl, rfl⟩), List.length_cons]
          have hc1 : counts.count gc = (counts.erase gc).count gc + 1 := by
            rw [List.count_erase_self]
            have := List.count_pos_iff.mpr hco.2
            omega
          have h2 := ih gs (counts.erase gc)
          omega
        · rw [filter_cons_neg _ (gc, Yellow) _ (decide_eq_false (fun hpq => hgc hpq.1))]
          have hc2 : (counts.erase gc).count c = counts.count c :=
            List.count_erase_of_ne (Ne.symm hgc) counts
          have h2 := ih gs (counts.erase gc)
          omega
      · rw [List.zip_cons_cons, List.zip_cons_cons]
        have h2 := ih gs counts
        by_cases hp : gc = c ∧ r = Yellow
        · rw [filter_cons_pos _ (gc, r) _ (decide_eq_true hp),
            filter_cons_pos _ (gc, r) _ (decide_eq_true hp), List.length_cons,
            List.length_cons]
          omega
        · rw [filter_cons_neg _ (gc, r) _ (decide_eq_false hp),
            filter_cons_neg _ (gc, r) _ (decide_eq_false hp)]
          omega

/-- The first pass has no Yellow at all. -/
theorem pass1_no_yellow (c : Char) (g t : List Char) :
    ((g.zip (pass1 g t)).filter (fun p => p.1 = c ∧ p.2 = Yellow)).length = 0 := by
  induction g generalizing t with
  | nil => simp [pass1]
  | cons gc g ih =>
    cases t with
    | nil => simp [pass1]
    | cons tc t =>
      simp only [pass1] at ih ⊢
      rw [List.zipWith_cons_cons, List.zip_cons_cons, List.filter_cons]
      rw [if_neg]
      · exact ih t
      · intro hpq
        by_cases hc : gc = tc
        · rw [if_pos hc] at hpq
          exact (Ne.symm yellow_ne_green) (of_decide_eq_true hpq).2
        · rw [if_neg hc] at hpq
          exact miss_ne_yellow (of_decide_eq_true hpq).2

/-- The second pass turns a position Green only when the first pass made it
Green. -/
theorem pass2_green_count (c : Char) (rs gs counts : List Char) :
    ((gs.zip (pass2 rs gs counts)).filter (fun p => p.1 = c ∧ p.2 = Green)).length =
      ((gs.zip rs).filter (fun p => p.1 = c ∧ p.2 = Green)).length := by
  induction rs generalizing gs counts with
  | nil => rw [pass2_nil]
  | cons r rs ih =>
    cases gs with
    | nil => rw [pass2_nil_guess]
    | cons gc gs =>
      rw [pass2_cons]
      split
      · rename_i hco
        rw [List.zip_cons_cons, List.zip_cons_cons, List.filter_cons, List.filter_cons]
        rw [if_neg (fun hpq => yellow_ne_green (of_decide_eq_true hpq).2),
          if_neg (fun hpq => (hco.1 ▸ miss_ne_green : r ≠ Green) (of_decide_eq_true hpq).2)]
        exact ih gs (counts.erase gc)
      · rw [List.zip_cons_cons, List.zip_cons_cons, List.filter_cons, List.filter_cons]
        by_cases hp : gc = c ∧ r = Green
        · rw [if_pos (by simpa using hp), if_pos (by simpa using hp)]
          simp only [List.length_cons]
          rw [ih gs counts]
        · rw [if_neg (by simpa using hp), if_neg (by simpa using hp)]
          exact ih gs counts

/-- The Greens of the first pass at letter `c` are the matched positions
carrying `c`. -/
theorem pass1_green_count (c : Char) (g t : List Char) :
    ((g.zip (pass1 g t)).filter (fun p => p.1 = c ∧ p.2 = Green)).length =
      ((g.zip t).filter (fun p => p.1 = p.2 ∧ p.2 = c)).length := by
  induction g generalizing t with
  | nil => simp [pass1]
  | cons gc g ih =>
    cases t with
    | nil => simp [pass1]
    | cons tc t =>
      simp only [pass1] at ih ⊢
      rw [List.zipWith_cons_cons, List.zip_cons_cons, List.zip_cons_cons,
        List.filter_cons, List.filter_cons]
      by_cases hc : gc = tc
      · rw [if_pos hc]
        by_cases hgc : gc = c
        · rw [if_pos (by simp [hgc]), if_pos (by simp [hc, hc ▸ hgc])]
          simp only [List.length_cons]
          rw [ih t]
        · rw [if_neg (by simpa using fun hpq : gc = c ∧ Green = Green => hgc hpq.1),
            if_neg (by simpa using fun hpq : gc = tc ∧ tc = c => hgc (hc.trans hpq.2))]
          exact ih t
      · rw [if_neg hc, if_neg (fun hpq => miss_ne_green (of_decide_eq_true hpq).2),
          if_neg (fun hpq => hc (of_decide_eq_true hpq).1)]
        exact ih t

/-- For equal-length words, the occurrences of `c` in the target split into
matched positions and the unmatched counts. -/
theorem count_unmatched (c : Char) (g t : List Char) (h : g.length = t.length) :
    t.count c =
      ((g.zip t).filter (fun p => p.1 = p.2 ∧ p.2 = c)).length + (unmatched g t).count c := by
  induction g generalizing t with
  | nil =>
    cases t with
    | nil => simp [unmatched]
    | cons tc t => simp at h
  | cons gc g ih =>
    cases t with
    | nil => simp at h
    | cons tc t =>
      have hlen : g.length = t.length := by simpa using h
      have iht := ih t hlen
      simp only [unmatched] at iht ⊢
      rw [List.zip_cons_cons]
      by_cases hc : gc = tc
      · rw [List.filterMap_cons_none (by rw [if_pos hc])]
        by_cases htc : tc = c
        · subst htc
          rw [filter_cons_pos _ (gc, tc) _ (decide_eq_true ⟨hc, rfl⟩), List.length_cons,
            List.count_cons_self]
          omega
        · rw [filter_cons_neg _ (gc, tc) _ (decide_eq_false (fun hpq => htc hpq.2)),
            List.count_cons_of_ne (fun hce => htc hce.symm)]
          omega
      · rw [List.filterMap_cons_some (by rw [if_neg hc]),
          filter_cons_neg _ (gc, tc) _ (decide_eq_false (fun hpq => hc hpq.1))]
        by_cases htc : tc = c
        · subst htc
          rw [List.count_cons_self, List.count_cons_self]
          omega
        · rw [List.count_cons_of_ne (fun hce => htc hce.symm),
            List.count_cons_of_ne (fun hce => htc hce.symm)]
          omega

/-- Splitting a filter over two mutually exclusive reply symbols. -/
theorem filter_green_or_yellow (c : Char) (l : List (Char × Char)) :
    (l.filter (fun p => p.1 = c ∧ (p.2 = Green ∨ p.2 = Yellow))).length =
      (l.filter (fun p => p.1 = c ∧ p.2 = Green)).length +
      (l.filter (fun p => p.1 = c ∧ p.2 = Yellow)).length := by
  induction l with
  | nil => simp
  | cons p l ih =>
    rw [List.filter_cons, List.filter_cons, List.filter_cons]
    by_cases h1 : p.1 = c ∧ p.2 = Green
    · rw [if_pos (by simpa using ⟨h1.1, Or.inl h1.2⟩), if_pos (by simpa using h1),
        if_neg (by simpa using fun hpq : p.1 = c ∧ p.2 = Yellow =>
          (Ne.symm yellow_ne_green) (h1.2 ▸ hpq.2))]
      simp only [List.length_cons]
      omega
    · by_cases h2 : p.1 = c ∧ p.2 = Yellow
      · rw [if_pos (by simpa using ⟨h2.1, Or.inr h2.2⟩), if_neg (by simpa using h1),
          if_pos (by simpa using h2)]
        simp only [List.length_cons]
        omega
      · rw [if_neg, if_neg (by simpa using h1), if_neg (by simpa using h2)]
        · exact ih
        · simp only [decide_eq_true_eq]
          rintro ⟨hp1, hp2 | hp2⟩
          · exact h1 ⟨hp1, hp2⟩
          · exact h2 ⟨hp1, hp2⟩

/-- C3: for equal-length words `g` and `t` and every letter `c`, the number
of positions where `g` carries `c` and the reply is Hit or Partial never
exceeds the occurrences of `c` in `t`. -/
theorem reply_for_letter_bound (g t : Word) (c : Char) (h : g.length = t.length) :
    ((g.zip (reply_for g t)).filter (fun p => p.1 = c ∧ (p.2 = Green ∨ p.2 = Yellow))).length ≤
      t.count c := by
  rw [filter_green_or_yellow, reply_for, pass2_green_count, pass1_green_count,
    count_unmatched c g t h]
  have hy := pass2_yellow_bound c (pass1 g t) g (unmatched g t)
  rw [pass1_no_yellow] at hy
  omega

theorem reply_for_letter_bound_witness :
    ((("HELLO".toList).zip (reply_for ("HELLO".toList) ("ALLEY".toList))).filter
        (fun p => p.1 = 'L' ∧ (p.2 = Green ∨ p.2 = Yellow))).length ≤
      ("ALLEY".toList).count 'L' :=
  reply_for_letter_bound ("HELLO".toList) ("ALLEY".toList) 'L' (by decide)

/-- The bin for key `k` in an insertion-ordered association list. -/
def getBin (k : List Reply) : List (List Reply × List Word) → List Word
  | [] => []
  | (k0, b) :: rest => if k0 = k then b else getBin k rest

theorem getBin_nil (k : List Reply) : getBin k [] = [] := rfl

theorem getBin_cons (k k0 : List Reply) (b : List Word) (rest : List (List Reply × List Word)) :
    getBin k ((k0, b) :: rest) = if k0 = k then b else getBin k rest := rfl

theorem insertBin_keys (k : List Reply) (t : Word) (acc : List (List Reply × List Word)) :
    (insertBin k t acc).map Prod.fst =
      if k ∈ acc.map Prod.fst then acc.map Prod.fst else acc.map Prod.fst ++ [k] := by
  induction acc with
  | nil => simp [insertBin]
  | cons e acc ih =>
    obtain ⟨k0, b⟩ := e
    by_cases h : k0 = k
    · subst h
      simp [insertBin]
    · simp only [insertBin, if_neg h, List.map_cons, ih]
      by_cases hm : k ∈ acc.map Prod.fst
      · rw [if_pos hm, if_pos (List.mem_cons_of_mem _ hm)]
      · rw [if_neg hm, if_neg ?_, List.cons_append]
        intro hmem
        rcases List.mem_cons.mp hmem with he | hm2
        · exact h he.symm
        · exact hm hm2

theorem insertBin_keys_nodup (k : List Reply) (t : Word) (acc : List (List Reply × List Word))
    (h : ((acc.map Prod.fst)).Nodup) : ((insertBin k t acc).map Prod.fst).Nodup := by
  rw [insertBin_keys]
  by_cases hm : k ∈ acc.map Prod.fst
  · rw [if_pos hm]
    exact h
  · rw [if_neg hm]
    exact h.append (List.nodup_singleton k) (fun a ha hb => hm (by
      rw [List.mem_singleton] at hb
      exact hb ▸ ha))

theorem partitionAux_keys_nodup (gs : List Word) (ts : List Word)
    (acc : List (List Reply × List Word)) (h : ((acc.map Prod.fst)).Nodup) :
    ((partitionAux gs acc ts).map Prod.fst).Nodup := by
  induction ts generalizing acc with
  | nil => exact h
  | cons t ts ih => exact ih _ (insertBin_keys_nodup _ _ _ h)

theorem getBin_insertBin (k k' : List Reply) (t : Word) (acc : List (List Reply × List Word)) :
    getBin k (insertBin k' t acc) =
      if k = k' then getBin k acc ++ [t] else getBin k acc := by
  induction acc with
  | nil =>
    rw [insertBin, getBin_cons, getBin_nil]
    by_cases h : k = k'
    · rw [if_pos h.symm, if_pos h, List.nil_append]
    · rw [if_neg (fun he => h he.symm), if_neg h]
  | cons e acc ih =>
    obtain ⟨k0, b⟩ := e
    by_cases h0 : k0 = k'
    · rw [insertBin, if_pos h0]
      by_cases hk : k = k'
      · rw [getBin_cons, if_pos (h0.trans hk.symm), if_pos hk, getBin_cons,
          if_pos (h0.trans hk.symm)]
      · rw [getBin_cons, if_neg (fun he => hk (he.symm.trans h0)), if_neg hk, getBin_cons,
          if_neg (fun he => hk (he.symm.trans h0))]
    · rw [insertBin, if_neg h0]
      by_cases hk0 : k0 = k
      · rw [getBin_cons, if_pos hk0, if_neg (fun he => h0 (hk0.trans he)), getBin_cons,
          if_pos hk0]
      · rw [getBin_cons, if_neg hk0, ih, getBin_cons, if_neg hk0]

theorem getBin_partitionAux (gs : List Word) (ts : List Word)
    (acc : List (List Reply × List Word)) (k : List Reply) :
    getBin k (partitionAux gs acc ts) =
      getBin k acc ++ ts.filter (fun t => replies gs t = k) := by
  induction ts generalizing acc with
  | nil => simp [partitionAux]
  | cons t ts ih =>
    rw [partitionAux, ih, getBin_insertBin]
    by_cases hk : k = replies gs t
    · rw [if_pos hk, filter_cons_pos _ t _ (decide_eq_true hk.symm), List.append_assoc,
        List.singleton_append]
    · rw [if_neg hk, filter_cons_neg _ t _ (decide_eq_false (fun he => hk he.symm))]

theorem getBin_of_mem (e : List Reply × List Word) (l : List (List Reply × List Word))
    (hnd : (l.map Prod.fst).Nodup) (hmem : e ∈ l) : getBin e.1 l = e.2 := by
  induction l with
  | nil => cases hmem
  | cons e0 l ih =>
    obtain ⟨k0, b0⟩ := e0
    rcases List.mem_cons.mp hmem with he | hm
    · rw [he, getBin_cons, if_pos rfl]
    · rw [List.map_cons, List.nodup_cons] at hnd
      have hmem1 : e.1 ∈ l.map Prod.fst := List.mem_map_of_mem Prod.fst hm
      have hk0 : k0 ≠ e.1 := fun he0 => hnd.1 (by rw [he0]; exact hmem1)
      rw [getBin_cons, if_neg hk0]
      exact ih hnd.2 hm

/-- Every bin of `partition` is the filter of the targets on its own key. -/
theorem bin_eq_filter (gs ts : List Word) (e : List Reply × List Word)
    (hmem : e ∈ partition gs ts) : e.2 = ts.filter (fun t => replies gs t = e.1) := by
  have hnd : ((partition gs ts).map Prod.fst).Nodup :=
    partitionAux_keys_nodup gs ts [] (by simp)
  have h1 := getBin_of_mem e (partition gs ts) hnd hmem
  rw [partition] at h1
  rw [← h1, getBin_partitionAux, getBin_nil, List.nil_append]

/-- A word in a bin of `partition` has that bin's key as its reply tuple. -/
theorem mem_bin_key (gs ts : List Word) (e : List Reply × List Word)
    (hmem : e ∈ partition gs ts) (w : Word) (hw : w ∈ e.2) : replies gs w = e.1 := by
  rw [bin_eq_filter gs ts e hmem] at hw
  exact of_decide_eq_true (List.mem_filter.mp hw).2

theorem insertBin_join (k : List Reply) (t : Word) (acc : List (List Reply × List Word)) :
    ((insertBin k t acc).map Prod.snd).flatten.Perm ((acc.map Prod.snd).flatten ++ [t]) := by
  induction acc with
  | nil => simp [insertBin]
  | cons e acc ih =>
    obtain ⟨k0, b⟩ := e
    by_cases h : k0 = k
    · simp only [insertBin, if_pos h, List.map_cons, List.flatten_cons]
      rw [List.append_assoc, List.append_assoc]
      exact List.Perm.append_left b List.perm_append_comm
    · simp only [insertBin, if_neg h, List.map_cons, List.flatten_cons]
      rw [List.append_assoc]
      exact List.Perm.append_left b ih

theorem partitionAux_join_perm (gs ts : List Word) (acc : List (List Reply × List Word)) :
    ((partitionAux gs acc ts).map Prod.snd).flatten.Perm ((acc.map Prod.snd).flatten ++ ts) := by
  induction ts generalizing acc with
  | nil => simp [partitionAux]
  | cons t ts ih =>
    rw [partitionAux]
    refine (ih _).trans ?_
    have h1 := (insertBin_join (replies gs t) t acc).append_right ts
    refine h1.trans ?_
    rw [List.append_assoc, List.singleton_append]

/-- The bins of `partition` hold the targets, each exactly once. -/
theorem partition_join_perm (gs ts : List Word) :
    ((partition gs ts).map Prod.snd).flatten.Perm ts := by
  have h := partitionAux_join_perm gs ts []
  simpa [partition] using h

/-- C2: the bins of `partition` are pairwise disjoint, their union is exactly
the target list (no target omitted or duplicated), and the bin sizes sum to
the number of targets. -/
theorem partition_is_partition (gs ts : List Word) :
    ((partition gs ts).map Prod.snd).flatten.Perm ts ∧
    ((partition gs ts).map (fun e => e.2.length)).sum = ts.length ∧
    List.Pairwise (fun e1 e2 => ∀ w, w ∈ e1.2 → w ∉ e2.2) (partition gs ts) := by
  refine ⟨partition_join_perm gs ts, ?_, ?_⟩
  · have h1 := (partition_join_perm gs ts).length_eq
    rw [List.length_flatten, List.map_map] at h1
    exact h1
  · have hnd : ((partition gs ts).map Prod.fst).Nodup :=
      partitionAux_keys_nodup gs ts [] (by simp)
    rw [List.Nodup, List.pairwise_map] at hnd
    refine hnd.imp_of_mem ?_
    intro e1 e2 h1 h2 hne w hw1 hw2
    exact hne ((mem_bin_key gs ts e1 h1 w hw1).symm.trans (mem_bin_key gs ts e2 h2 w hw2))

/-- C1: `can_win` holds exactly when every bin either has at most one word,
or every word in the bin splits the bin into singletons when guessed. -/
theorem can_win_iff (gs ts : List Word) :
    can_win gs ts = true ↔
      ∀ e ∈ partition gs ts, e.2.length ≤ 1 ∨
        ∀ w ∈ e.2, ∀ e5 ∈ partition [w] e.2, e5.2.length = 1 := by
  simp [can_win, can_win_bin, Nat.lt_succ_iff]

/-- One `Counter` step mirrors one `insertBin` step on singleton keys. -/
theorem counterAdd_rel (pacc : List (List Reply × List Word)) (cacc : List (Reply × Nat))
    (hrel : pacc.map (fun e => (e.1, e.2.length)) = cacc.map (fun e => ([e.1], e.2)))
    (r : Reply) (t : Word) :
    (insertBin [r] t pacc).map (fun e => (e.1, e.2.length)) =
      (counterAdd cacc r).map (fun e => ([e.1], e.2)) := by
  induction pacc generalizing cacc with
  | nil =>
    cases cacc with
    | nil => simp [insertBin, counterAdd]
    | cons c cr => simp at hrel
  | cons e pr ih =>
    obtain ⟨k, b⟩ := e
    cases cacc with
    | nil => simp at hrel
    | cons c cr =>
      obtain ⟨rk, n⟩ := c
      rw [List.map_cons, List.map_cons] at hrel
      injection hrel with h1 h2
      injection h1 with hk hn
      rw [insertBin, counterAdd]
      by_cases hr : k = [r]
      · have hrk : rk = r := (List.cons_eq_cons.mp (hk.symm.trans hr)).1
        rw [if_pos hr, if_pos hrk, List.map_cons, List.map_cons, h2]
        congr 1
        simp [show k = [rk] from hk, show b.length = n from hn]
      · have hrk : ¬(rk = r) := fun hrr => hr (hk.trans (by rw [hrr]))
        rw [if_neg hr, if_neg hrk, List.map_cons, List.map_cons, ih cr h2]
        congr 1
        simp [show k = [rk] from hk, show b.length = n from hn]

/-- The `Counter` fold of the replies mirrors `partitionAux` on one guess. -/
theorem counter_fold_rel (g : Word) (ts : List Word) (pacc : List (List Reply × List Word))
    (cacc : List (Reply × Nat))
    (hrel : pacc.map (fun e => (e.1, e.2.length)) = cacc.map (fun e => ([e.1], e.2))) :
    (partitionAux [g] pacc ts).map (fun e => (e.1, e.2.length)) =
      ((ts.map (fun t => reply_for g t)).foldl counterAdd cacc).map (fun e => ([e.1], e.2)) := by
  induction ts generalizing pacc cacc with
  | nil => exact hrel
  | cons t ts ih =>
    rw [partitionAux, List.map_cons, List.foldl_cons]
    refine ih _ _ ?_
    have hkey : replies [g] t = [reply_for g t] := by simp [replies]
    rw [hkey]
    exact counterAdd_rel pacc cacc hrel (reply_for g t) t

/-- `bin_sizes` lists exactly the bin lengths of the single-guess partition. -/
theorem bin_sizes_eq (g : Word) (ws : List Word) :
    bin_sizes g ws = (partition [g] ws).map (fun e => e.2.length) := by
  have h := counter_fold_rel g ws [] [] rfl
  have h2 := congrArg (List.map Prod.snd) h
  rw [List.map_map, List.map_map] at h2
  rw [bin_sizes]
  exact h2.symm

theorem count_one_eq_filter_len (l : List (List Reply × List Word)) :
    (l.map (fun e => e.2.length)).count 1 = (l.filter (fun e => e.2.length = 1)).length := by
  induction l with
  | nil => rfl
  | cons e l ih =>
    rw [List.map_cons]
    by_cases h : e.2.length = 1
    · rw [h, List.count_cons_self, filter_cons_pos _ e _ (decide_eq_true h),
        List.length_cons, ih]
    · rw [List.count_cons_of_ne (fun hh => h hh.symm),
        filter_cons_neg _ e _ (decide_eq_false h), ih]

/-- C8: `wins` counts the singleton bins of the single-guess partition, and
`expected_wins` is the sum of the reciprocals of the bin sizes, in exact
rational arithmetic. -/
theorem wins_expected_wins_spec (g : Word) (ws : List Word) :
    wins g ws = ((partition [g] ws).filter (fun e => e.2.length = 1)).length ∧
    expected_wins g ws = ((partition [g] ws).map (fun e => 1 / ((e.2.length : ℚ)))).sum := by
  constructor
  · rw [wins, bin_sizes_eq, count_one_eq_filter_len]
  · rw [expected_wins, bin_sizes_eq, List.map_map]
    rfl

/-- Inversion of a successful scan step of the candidate generator. -/
theorem disjoint_scan_some (next : Finset Char → Option (List Word)) (pool : List Word)
    (letters : Finset Char) (ws : List Word)
    (h : disjoint_scan next pool letters = some ws) :
    ∃ w rest, w ∈ pool ∧ w.toFinset ⊆ letters ∧ w.toFinset.card = 5 ∧
      next (letters \ w.toFinset) = some rest ∧ ws = w :: rest := by
  induction pool with
  | nil => simp [disjoint_scan] at h
  | cons w pool ih =>
    by_cases hc : w.toFinset ⊆ letters ∧ w.toFinset.card = 5
    · cases hnext : next (letters \ w.toFinset) with
      | some rest =>
        simp only [disjoint_scan, if_pos hc, hnext] at h
        exact ⟨w, rest, List.mem_cons_self w pool, hc.1, hc.2, hnext,
          (Option.some.inj h).symm⟩
      | none =>
        simp only [disjoint_scan, if_pos hc, hnext] at h
        obtain ⟨x, rest, hmem, h1, h2, h3, h4⟩ := ih h
        exact ⟨x, rest, List.mem_cons_of_mem _ hmem, h1, h2, h3, h4⟩
    · simp only [disjoint_scan, if_neg hc] at h
      obtain ⟨x, rest, hmem, h1, h2, h3, h4⟩ := ih h
      exact ⟨x, rest, List.mem_cons_of_mem _ hmem, h1, h2, h3, h4⟩

/-- C6: a sequence returned by `disjoint_words` has exactly `n` words from
the pool, each with exactly 5 distinct letters inside the budget, and with
pairwise disjoint letter sets. -/
theorem disjoint_words_sound (n : Nat) (pool : List Word) (budget : Finset Char)
    (ws : List Word) (h : disjoint_words n pool budget = some ws) :
    ws.length = n ∧ (∀ w ∈ ws, w ∈ pool) ∧
    (∀ w ∈ ws, w.toFinset ⊆ budget ∧ w.toFinset.card = 5) ∧
    List.Pairwise (fun a b => Disjoint a.toFinset b.toFinset) ws := by
  induction n generalizing budget ws with
  | zero =>
    rw [disjoint_words] at h
    obtain rfl := Option.some.inj h
    simp
  | succ n ih =>
    rw [disjoint_words] at h
    obtain ⟨w, rest, hmem, hsub, hcard, hnext, rfl⟩ := disjoint_scan_some _ _ _ _ h
    obtain ⟨hlen, hpool, hprops, hpair⟩ := ih (budget \ w.toFinset) rest hnext
    refine ⟨by simp [hlen], ?_, ?_, ?_⟩
    · intro x hx
      rcases List.mem_cons.mp hx with rfl | hx
      · exact hmem
      · exact hpool x hx
    · intro x hx
      rcases List.mem_cons.mp hx with rfl | hx
      · exact ⟨hsub, hcard⟩
      · obtain ⟨h1, h2⟩ := hprops x hx
        exact ⟨h1.trans Finset.sdiff_subset, h2⟩
    · refine List.Pairwise.cons ?_ hpair
      intro x hx
      have h1 := (hprops x hx).1
      exact Finset.disjoint_left.mpr
        (fun a haw hax => (Finset.mem_sdiff.mp (h1 hax)).2 haw)

theorem disjoint_words_sound_witness :
    (["ABCDE".toList, "FGHIK".toList] : List Word).length = 2 :=
  (disjoint_words_sound 2 ["ABCDE".toList, "ABCDF".toList, "FGHIK".toList]
    (("ABCDEFGHIK".toList).toFinset) ["ABCDE".toList, "FGHIK".toList] (by decide)).1

/-- The scan fails exactly when every feasible word of the pool leads to a
failing continuation. -/
theorem disjoint_scan_none_iff (next : Finset Char → Option (List Word)) (pool : List Word)
    (letters : Finset Char) :
    disjoint_scan next pool letters = none ↔
      ∀ w ∈ pool, (w.toFinset ⊆ letters ∧ w.toFinset.card = 5) →
        next (letters \ w.toFinset) = none := by
  induction pool with
  | nil => simp [disjoint_scan]
  | cons w pool ih =>
    by_cases hc : w.toFinset ⊆ letters ∧ w.toFinset.card = 5
    · cases hnext : next (letters \ w.toFinset) with
      | some rest =>
        simp only [disjoint_scan, if_pos hc, hnext]
        constructor
        · intro h
          cases h
        · intro hall
          have := hall w (List.mem_cons_self w pool) hc
          rw [hnext] at this
          cases this
      | none =>
        simp only [disjoint_scan, if_pos hc, hnext, ih]
        constructor
        · intro hall x hx hcx
          rcases List.mem_cons.mp hx with rfl | hx
          · exact hnext
          · exact hall x hx hcx
        · intro hall x hx hcx
          exact hall x (List.mem_cons_of_mem _ hx) hcx
    · simp only [disjoint_scan, if_neg hc, ih]
      constructor
      · intro hall x hx hcx
        rcases List.mem_cons.mp hx with rfl | hx
        · exact absurd hcx hc
        · exact hall x hx hcx
      · intro hall x hx hcx
        exact hall x (List.mem_cons_of_mem _ hx) hcx

/-- C7: the candidate generator succeeds with the empty sequence at `n = 0`,
and answers `none` exactly when every word of the pool has been scanned and
failed at the top level — an explicit no-solution result, never an error. -/
theorem disjoint_words_empty_and_exhaustive :
    (∀ (pool : List Word) (budget : Finset Char), disjoint_words 0 pool budget = some []) ∧
    (∀ (n : Nat) (pool : List Word) (budget : Finset Char),
      disjoint_words (n + 1) pool budget = none ↔
        ∀ w ∈ pool, (w.toFinset ⊆ budget ∧ w.toFinset.card = 5) →
          disjoint_words n pool (budget \ w.toFinset) = none) := by
  refine ⟨fun pool budget => rfl, fun n pool budget => ?_⟩
  rw [disjoint_words]
  exact disjoint_scan_none_iff _ pool budget

/-- The spec's refinement variant of `can_win`: the short-circuit also
exempts 2-word bins from the per-word check. -/
def can_win_exempting_pairs (guesses targets : List Word) : Bool :=
  (partition guesses targets).all
    (fun e => decide (e.2.length ≤ 2) || e.2.all (fun w => can_win_bin w e.2))

theorem partition_pair (g x y : Word) (hk : replies [g] x ≠ replies [g] y) :
    partition [g] [x, y] = [(replies [g] x, [x]), (replies [g] y, [y])] := by
  rw [partition, partitionAux, partitionAux, partitionAux, insertBin, insertBin,
    if_neg hk, insertBin]

theorem can_win_bin_two (w a b : Word) (hk : replies [w] a ≠ replies [w] b) :
    can_win_bin w [a, b] = true := by
  rw [can_win_bin, partition_pair w a b hk]
  rfl

/-- A length-5 word never gets the all-Green reply tuple of the guess
itself on a different length-5 target. -/
theorem replies_self_ne (w v : Word) (hw : w.length = 5) (hv : v.length = 5)
    (hne : w ≠ v) : replies [w] w ≠ replies [w] v := by
  intro h
  simp only [replies, List.map_cons, List.map_nil] at h
  have h1 : reply_for w w = reply_for w v := (List.cons_eq_cons.mp h).1
  rw [reply_for_self, hw] at h1
  exact hne ((reply_for_all_green_iff w v hw hv).mp h1.symm)

theorem all_congr_mem {α : Type} (l : List α) (p q : α → Bool)
    (h : ∀ x ∈ l, p x = q x) : l.all p = l.all q := by
  induction l with
  | nil => rfl
  | cons a l ih =>
    rw [List.all_cons, List.all_cons, h a (List.mem_cons_self a l),
      ih (fun x hx => h x (List.mem_cons_of_mem _ hx))]

theorem can_win_eq_exempting_pairs (gs ts : List Word) (hnd : ts.Nodup)
    (hlen : ∀ w ∈ ts, w.length = 5) :
    can_win gs ts = can_win_exempting_pairs gs ts := by
  rw [can_win, can_win_exempting_pairs]
  apply all_congr_mem
  intro e he
  by_cases h2 : e.2.length < 2
  · rw [decide_eq_true h2, decide_eq_true (by omega : e.2.length ≤ 2), Bool.true_or]
  · by_cases h3 : e.2.length = 2
    · rw [decide_eq_false h2, decide_eq_true (by omega : e.2.length ≤ 2),
        Bool.false_or, Bool.true_or]
      have hbin := bin_eq_filter gs ts e he
      have hnd2 : e.2.Nodup := by
        rw [hbin]
        exact hnd.filter _
      have hsub : ∀ x ∈ e.2, x ∈ ts := by
        intro x hx
        rw [hbin] at hx
        exact (List.mem_filter.mp hx).1
      obtain ⟨x, y, hxy⟩ := List.length_eq_two.mp h3
      have hx5 : x.length = 5 := hlen x (hsub x (by rw [hxy]; exact List.mem_cons_self x [y]))
      have hy5 : y.length = 5 := hlen y (hsub y (by
        rw [hxy]
        exact List.mem_cons_of_mem x (List.mem_cons_self y [])))
      have hxy_ne : x ≠ y := by
        rw [hxy, List.nodup_cons] at hnd2
        exact fun he2 => hnd2.1 (he2 ▸ List.mem_cons_self y [])
      rw [hxy]
      simp only [List.all_cons, List.all_nil]
      rw [can_win_bin_two x x y (replies_self_ne x y hx5 hy5 hxy_ne),
        can_win_bin_two y x y (Ne.symm (replies_self_ne y x hy5 hx5 (Ne.symm hxy_ne)))]
      rfl
    · rw [decide_eq_false h2, decide_eq_false (by omega : ¬(e.2.length ≤ 2)),
        Bool.false_or]

/-- C10: every bin of exactly two distinct length-5 words passes
`can_win_bin` for each of its words, and consequently `can_win` agrees with
the variant that also exempts 2-word bins without checking them. -/
theorem two_word_bins_and_exemption (a b : Word) (gs ts : List Word)
    (ha : a.length = 5) (hb : b.length = 5) (hab : a ≠ b)
    (hnd : ts.Nodup) (hlen : ∀ w ∈ ts, w.length = 5) :
    (can_win_bin a [a, b] = true ∧ can_win_bin b [a, b] = true) ∧
    can_win gs ts = can_win_exempting_pairs gs ts :=
  ⟨⟨can_win_bin_two a a b (replies_self_ne a b ha hb hab),
    can_win_bin_two b a b (Ne.symm (replies_self_ne b a hb ha (Ne.symm hab)))⟩,
   can_win_eq_exempting_pairs gs ts hnd hlen⟩

theorem two_word_bins_and_exemption_witness :
    can_win_bin ("ALLAY".toList) [("ALLAY".toList), ("LILAC".toList)] = true :=
  (two_word_bins_and_exemption ("ALLAY".toList) ("LILAC".toList) []
    [("ALLAY".toList), ("LILAC".toList)] (by decide) (by decide) (by decide)
    (by decide) (by decide)).1.1

end Wordle
